import Mathlib

/-!
Verification development for the native scraping core of Lambda-v3
(src/native/src/lib.rs): a shallow embedding of the HTML tree model,
the node walker `walk_nodes`, the recursive content parser `parse_node`,
the signature tokenizer `parse_signature_node`, and the caching
orchestrator `scrape_document` / `has_document`, together with theorems
settling the specification claims.

Modelling conventions:
* The HTML tree model (the `select` crate) is embedded as an inductive
  tree `Node`; `Document::from(html)` is modelled as the already-parsed
  tree being passed in, since HTML-string parsing is supplied by the
  external library.
* Rust panics (the `.unwrap()` calls on `find(..).next()` inside the
  `dl.describe` scan of `parse_node`) are modelled as the `PRes.abort`
  outcome, which propagates to the top.
* `parse_node` recurses on descendant nodes found by tree queries, so the
  embedding uses a fuel parameter decremented once per node level; the
  exposed `parse_node` supplies fuel `Node.size`, which always suffices
  (every recursion target is a strict descendant, so its size is smaller).
  Fuel exhaustion is the separate outcome `PRes.fuelOut`, never conflated
  with a panic.
-/

/-- An HTML tree node: a text run, or an element with a tag name, an
attribute list and ordered children (the tree model of the select crate). -/
inductive Node where
  | text (s : String)
  | elem (tag : String) (attrs : List (String × String)) (children : List Node)

namespace Node

/-- Tag name of an element (text nodes have no tag; the sources only ask
for the name of element nodes). -/
def tag : Node → String
  | .text _ => ""
  | .elem t _ _ => t

/-- node.children() of the tree model. -/
def childrenOf : Node → List Node
  | .text _ => []
  | .elem _ _ cs => cs

/-- node.attr(key): the first attribute with the given name. -/
def attr (n : Node) (key : String) : Option String :=
  match n with
  | .text _ => none
  | .elem _ attrs _ => (attrs.find? (fun p => p.1 == key)).map (fun p => p.2)

mutual
/-- node.text() of the select crate: the concatenated text of the subtree. -/
def textOf : Node → String
  | .text s => s
  | .elem _ _ cs => textList cs

def textList : List Node → String
  | [] => ""
  | c :: cs => textOf c ++ textList cs
end

mutual
/-- All descendants of a node in document (preorder) order, excluding the
node itself: the iteration order of select's `Node::find`. -/
def descendants : Node → List Node
  | .text _ => []
  | .elem _ _ cs => descList cs

def descList : List Node → List Node
  | [] => []
  | c :: cs => c :: (descendants c ++ descList cs)
end

mutual
/-- Number of nodes in the subtree; used as the fuel bound of the parser. -/
def size : Node → Nat
  | .text _ => 1
  | .elem _ _ cs => 1 + sizeList cs

def sizeList : List Node → Nat
  | [] => 0
  | c :: cs => size c + sizeList cs
end

end Node

/-! String helpers, written over the character-list representation so that
they mirror the Rust `str` operations used by the source and evaluate by
kernel reduction. -/

/-- str::split(" ") on the character list (keeps empty runs, like Rust). -/
def splitCharAux (sep : Char) : List Char → List (List Char)
  | [] => [[]]
  | c :: rest =>
    match splitCharAux sep rest with
    | h :: t => if c == sep then [] :: h :: t else (c :: h) :: t
    | [] => [[c]]

/-- class attribute splitting: Rust `classes.split(" ")`. -/
def splitSpaces (s : String) : List String :=
  (splitCharAux ' ' s.data).map (fun l => String.mk l)

/-- str::trim (whitespace stripped from both ends). -/
def trimS (s : String) : String :=
  String.mk (((s.data.dropWhile Char.isWhitespace).reverse.dropWhile Char.isWhitespace).reverse)

def isPrefixList (pat : List Char) : List Char → Bool :=
  fun l =>
    match pat, l with
    | [], _ => true
    | _ :: _, [] => false
    | p :: ps, c :: cs => p == c && isPrefixList ps cs

def isSubList (pat : List Char) : List Char → Bool
  | [] => pat.isEmpty
  | c :: cs => isPrefixList pat (c :: cs) || isSubList pat cs

/-- str::contains(pat): substring containment. -/
def containsSub (s pat : String) : Bool := isSubList pat.data s.data

/-- str::replace("\n", " "): single-character replacement. -/
def replaceNl (s : String) : String :=
  String.mk (s.data.map fun c => if c == '\n' then ' ' else c)

/-- str::starts_with("h"). -/
def startsWithH (s : String) : Bool :=
  match s.data with
  | [] => false
  | c :: _ => c == 'h'

def concatS (l : List String) : String := l.foldl (fun a b => a ++ b) ""

/-- slice::join(sep). -/
def joinSep (sep : String) (l : List String) : String :=
  match l with
  | [] => ""
  | h :: t => t.foldl (fun acc s => acc ++ sep ++ s) h

/-! The node walker. -/

/-- Output variant of the walker: `WrappedNode` in the source. -/
inductive WrappedNode where
  | text (s : String)
  | element (n : Node)

/-- The fixed allow-list of content tags in `walk_nodes`. -/
def allowTags : List String := ["p", "a", "b", "i", "em", "strong", "u", "ul", "ol", "code"]

/-- The division classes that `walk_nodes` emits as elements. -/
def divClasses : List String := ["admonition", "operations", "highlight-python3", "highlight-default"]

mutual
/-- walk_nodes of the source: classify the immediate children of a node. -/
def walk_nodes : Node → List WrappedNode
  | .text _ => []
  | .elem _ _ cs => walkChildren cs

/-- The child loop of `walk_nodes`; returning `[]` from the non-field-list
definition-list case models the `break` that drops all remaining siblings. -/
def walkChildren : List Node → List WrappedNode
  | [] => []
  | c :: rest =>
    match c with
    | .text s =>
      if s.length > 0 then .text s :: walkChildren rest else walkChildren rest
    | .elem tg _ _ =>
      if allowTags.contains tg then
        .element c :: walkChildren rest
      else if startsWithH tg then
        .element c :: walkChildren rest
      else
        match c.attr "class" with
        | none => walkChildren rest
        | some classes =>
          let class_list := splitSpaces classes
          if tg == "dl" then
            if !(class_list.contains "field-list") then []
            else .element c :: walkChildren rest
          else if tg == "div" && divClasses.any (fun t => class_list.contains t) then
            .element c :: walkChildren rest
          else
            walk_nodes c ++ walkChildren rest
end

/-! Tree queries used by the parsers (select's Name/Class/Attr predicates). -/

def isTag (t : String) (n : Node) : Bool := n.tag == t

def classListOf (n : Node) : List String := splitSpaces ((n.attr "class").getD "")

/-- Name("dl").and(Class("describe")). -/
def isDescribe (n : Node) : Bool := n.tag == "dl" && (classListOf n).contains "describe"

/-- Name("dt").and(Attr("id", target)). -/
def isDtWithId (target : String) (n : Node) : Bool :=
  n.tag == "dt" && (n.attr "id" == some target)

/-- element.find(pred): matching descendants in document order. -/
def findAll (p : Node → Bool) (n : Node) : List Node := n.descendants.filter p

/-- element.find(pred).next(): the first matching descendant. -/
def findFirst (p : Node → Bool) (n : Node) : Option Node := n.descendants.find? p

mutual
/-- First matching descendant together with the node's next sibling
(select's `node.next()` returns the next sibling node, text runs included). -/
def firstWithNextNode (p : Node → Bool) : Node → Option (Node × Option Node)
  | .text _ => none
  | .elem _ _ cs => firstWithNextIn p cs

def firstWithNextIn (p : Node → Bool) : List Node → Option (Node × Option Node)
  | [] => none
  | c :: rest =>
    if p c then some (c, rest.head?)
    else
      match firstWithNextNode p c with
      | some r => some r
      | none => firstWithNextIn p rest
end

mutual
/-- First matching descendant of the root paired with its parent, in
document order (document.find + Node::parent; the root of a parsed select
Document is always the html element, so a matching dt always has a
parent). -/
def findWithParentNode (p : Node → Bool) : Node → Option (Node × Node)
  | .text _ => none
  | .elem t a cs => findWithParentIn p (.elem t a cs) cs

def findWithParentIn (p : Node → Bool) (parent : Node) : List Node → Option (Node × Node)
  | [] => none
  | c :: rest =>
    if p c then some (c, parent)
    else
      match findWithParentNode p c with
      | some r => some r
      | none => findWithParentIn p parent rest
end

/-! The content parser. -/

/-- Discord-style embed field: `EmbedField` of the source. -/
structure EmbedField where
  name : String
  value : String
  inline : Bool
deriving DecidableEq, Repr

/-- EmbedField::new — `inline` is always false. -/
def EmbedField.new (name value : String) : EmbedField := ⟨name, value, false⟩

/-- Outcome of a parser call: a value, a Rust panic (an `.unwrap()` on a
missing node), or fuel exhaustion of the embedding (never conflated with a
panic; fuel `Node.size` always suffices). -/
inductive PRes (α : Type) where
  | ok (val : α)
  | abort
  | fuelOut
deriving DecidableEq, Repr

def PRes.bind {α β : Type} : PRes α → (α → PRes β) → PRes β
  | .ok a, f => f a
  | .abort, _ => .abort
  | .fuelOut, _ => .fuelOut

/-- The per-li recursion of the ul/ol cases: `element.find(Name("li"))`
followed by `_recur` on each match, in order. -/
def listG (rec : Node → PRes (String × List EmbedField)) :
    List Node → PRes (List (String × List EmbedField))
  | [] => .ok []
  | l :: rest =>
    (rec l).bind fun r => (listG rec rest).bind fun rs => .ok (r :: rs)

/-- The dt/dd pair loop of the standalone `dl` case: recurse both sides of
each positional pair and emit a field according to the emptiness checks of
the source (`dt.chars().count() > 0 && dd.chars().count() > 0`, else
`dd.chars().count() <= 0`). -/
def pairsG (rec : Node → PRes (String × List EmbedField)) :
    List (Node × Node) → PRes (List EmbedField)
  | [] => .ok []
  | (dtN, ddN) :: rest =>
    (rec dtN).bind fun dtR => (rec ddN).bind fun ddR =>
    (pairsG rec rest).bind fun fs =>
    .ok (dtR.2 ++ ddR.2 ++
      (if dtR.1.length > 0 && ddR.1.length > 0 then [EmbedField.new dtR.1 ddR.1]
       else if ddR.1.length == 0 then [EmbedField.new dtR.1 "No content provided."]
       else []) ++ fs)

/-- The `dl.describe` scan of the `div` case. The source unwraps the first
dt and the first dd of every block: a block with no dt, or a block with a
dt but no dd, panics (`PRes.abort`). On success it yields the formatted
chunk lines and the fields accumulated by the recursions. -/
def describeG (rec : Node → PRes (String × List EmbedField)) :
    List Node → PRes (List String × List EmbedField)
  | [] => .ok ([], [])
  | b :: rest =>
    match findFirst (isTag "dt") b with
    | none => .abort
    | some dtN =>
      (rec dtN).bind fun op =>
      match findFirst (isTag "dd") b with
      | none => .abort
      | some ddN =>
        (rec ddN).bind fun de =>
        (describeG rec rest).bind fun cf =>
        .ok (("**`" ++ trimS op.1 ++ "`** - " ++ trimS (replaceNl de.1)) :: cf.1,
             op.2 ++ de.2 ++ cf.2)

/-- Fields contributed at the end of every `div` case by the describe scan:
the sub-fields found while recursing, then the single "Supported
Operations" field when at least one chunk line was produced. -/
def soFields (dR : List String × List EmbedField) : List EmbedField :=
  dR.2 ++ (if dR.1.length > 0 then
    [EmbedField.new "Supported Operations" (joinSep "\n" dR.1)] else [])

/-- The `div` arm of the parser loop: admonition handling, rubric-labelled
python code blocks, generic highlighted code blocks — each possibly ending
the arm early via the source's `continue` — followed by the `dl.describe`
scan. Computes the updated (markdown, pending rubric, fields) state. -/
def divStep (rec : Node → PRes (String × List EmbedField)) (e : Node)
    (res : String) (rub : Option String) (fields : List EmbedField) :
    PRes (String × Option String × List EmbedField) :=
  if (classListOf e).contains "admonition" then
    match firstWithNextNode (isTag "p") e with
    | none => .ok (res, rub, fields)
    | some (first, nextSib) =>
      (rec first).bind fun tR =>
      match nextSib with
      | none => .ok (res, rub, fields ++ tR.2)
      | some nxt =>
        (rec nxt).bind fun cR =>
        if (trimS tR.1).length == 0 || (trimS cR.1).length == 0 then
          .ok (res, rub, fields ++ tR.2 ++ cR.2)
        else
          (describeG rec (findAll isDescribe e)).bind fun dR =>
          .ok (res, rub, fields ++ tR.2 ++ cR.2 ++
               [EmbedField.new (trimS tR.1) (trimS cR.1)] ++ soFields dR)
  else if rub.isSome && (classListOf e).contains "highlight-python3" then
    (describeG rec (findAll isDescribe e)).bind fun dR =>
    .ok (res, none,
         fields ++ [EmbedField.new (rub.getD "") ("```py\n" ++ e.textOf ++ "```")] ++
         soFields dR)
  else if (classListOf e).contains "highlight-default" then
    (describeG rec (findAll isDescribe e)).bind fun dR =>
    .ok (res ++ "```\n" ++ e.textOf ++ "```", rub, fields ++ soFields dR)
  else
    (describeG rec (findAll isDescribe e)).bind fun dR =>
    .ok (res, rub, fields ++ soFields dR)

/-- The child loop of `parse_node`: fold the walker output left-to-right,
threading the markdown accumulator, the pending rubric and the field list,
dispatching on the tag exactly as the source's match does. `rec` is the
recursive call `parse_node` at one less fuel. -/
def goWrapped (rec : Node → PRes (String × List EmbedField)) (url : String) :
    List WrappedNode → String → Option String → List EmbedField →
    PRes (String × Option String × List EmbedField)
  | [], res, rub, fields => .ok (res, rub, fields)
  | .text t :: rest, res, rub, fields => goWrapped rec url rest (res ++ t) rub fields
  | .element e :: rest, res, rub, fields =>
    match e.tag with
    | "p" =>
      if (classListOf e).contains "rubric" then
        goWrapped rec url rest res (some (trimS e.textOf)) fields
      else
        (rec e).bind fun r => goWrapped rec url rest (res ++ r.1) rub (fields ++ r.2)
    | "a" =>
      (rec e).bind fun inner =>
      match e.attr "href" with
      | none => goWrapped rec url rest res rub (fields ++ inner.2)
      | some href0 =>
        let href := if containsSub href0 "://" then href0 else url ++ href0
        goWrapped rec url rest (res ++ "[" ++ inner.1 ++ "](" ++ href ++ ")") rub
          (fields ++ inner.2)
    | "b" | "strong" =>
      (rec e).bind fun r =>
        goWrapped rec url rest (res ++ "**" ++ r.1 ++ "**") rub (fields ++ r.2)
    | "i" | "em" =>
      (rec e).bind fun r =>
        goWrapped rec url rest (res ++ "*" ++ r.1 ++ "*") rub (fields ++ r.2)
    | "u" =>
      (rec e).bind fun r =>
        goWrapped rec url rest (res ++ "__" ++ r.1 ++ "__") rub (fields ++ r.2)
    | "code" =>
      (rec e).bind fun r =>
        goWrapped rec url rest (res ++ "`" ++ r.1 ++ "`") rub (fields ++ r.2)
    | "ul" =>
      (listG rec (findAll (isTag "li") e)).bind fun rs =>
      goWrapped rec url rest
        (res ++ "\n" ++ concatS (rs.map fun r => "• " ++ r.1 ++ "\n")) rub
        (fields ++ (rs.map fun r => r.2).flatten)
    | "ol" =>
      (listG rec (findAll (isTag "li") e)).bind fun rs =>
      goWrapped rec url rest
        (res ++ concatS (rs.enum.map fun ir => Nat.repr ir.1 ++ ". " ++ ir.2.1 ++ "\n")) rub
        (fields ++ (rs.map fun r => r.2).flatten)
    | "div" =>
      (divStep rec e res rub fields).bind fun st =>
      goWrapped rec url rest st.1 st.2.1 st.2.2
    | "dl" =>
      (pairsG rec ((findAll (isTag "dt") e).zip (findAll (isTag "dd") e))).bind fun fs =>
      goWrapped rec url rest res rub (fields ++ fs)
    | _ => goWrapped rec url rest res rub fields

/-- parse_node with explicit fuel, decremented once per node level. A text
node returns its literal text with no fields; an element folds the walker
output of its children and discards the pending rubric. -/
def parseNodeF : Nat → Node → String → PRes (String × List EmbedField)
  | 0, _, _ => .fuelOut
  | _ + 1, .text s, _ => .ok (s, [])
  | f + 1, .elem t a cs, url =>
    (goWrapped (fun m => parseNodeF f m url) url (walk_nodes (.elem t a cs)) "" none []).bind
      fun r => .ok (r.1, r.2.2)

/-- The recursive call at a given fuel, as a one-argument function. -/
def parseNodeFn (f : Nat) (url : String) : Node → PRes (String × List EmbedField) :=
  fun n => parseNodeF f n url

/-- parse_node of the source; fuel `Node.size` always suffices because every
recursion target is a strict descendant of the node. -/
def parse_node (node : Node) (url : String) : PRes (String × List EmbedField) :=
  parseNodeF node.size node url

/-! The signature tokenizer. -/

/-- One colorized span: `AnsiStringSection` of the source. -/
structure AnsiStringSection where
  content : String
  bold : Bool
  color : String
deriving DecidableEq, Repr

mutual
/-- parse_signature_node of the source: iterate the direct children and
classify each by tag/class, accumulating spans in traversal order. -/
def parse_signature_node : Node → List AnsiStringSection
  | .text _ => []
  | .elem _ _ cs => sigGo cs []

/-- The child loop of `parse_signature_node`, with the accumulated
sections vector threaded through (the source pushes into a mutable Vec). -/
def sigGo : List Node → List AnsiStringSection → List AnsiStringSection
  | [], acc => acc
  | c :: rest, acc =>
    match c with
    | .text s => sigGo rest (acc ++ [⟨s, true, "gray"⟩])
    | .elem nm _ _ =>
      let classes := classListOf c
      if nm == "em" && !(classes.contains "sig-param") then
        sigGo rest (acc ++ [⟨c.textOf, false, "green"⟩])
      else if classes.contains "sig-paren" || classes.contains "o" then
        sigGo rest (acc ++ [⟨c.textOf, true, "gray"⟩])
      else if classes.contains "n" then
        sigGo rest (acc ++ [⟨c.textOf, false, "yellow"⟩])
      else if classes.contains "default_value" then
        sigGo rest (acc ++ [⟨c.textOf, false, "cyan"⟩])
      else if classes.contains "sig-prename" then
        sigGo rest (acc ++
          [⟨c.textOf, false, if classes.contains "descclassname" then "white" else "red"⟩])
      else if classes.contains "descname" || classes.contains "sig-name" then
        sigGo rest (acc ++ [⟨c.textOf, true, "white"⟩])
      else if classes.contains "sig-param" then
        sigGo rest (acc ++ parse_signature_node c)
      else
        sigGo rest acc
end

/-! The orchestrator and the document cache. -/

/-- SphinxDocumentResult of the source. -/
structure SphinxDocumentResult where
  description : String
  signature : List AnsiStringSection
  fields : List EmbedField
deriving DecidableEq, Repr

/-- Outcome of scrape_document: a full result, a NotFound-kind error
(PyValueError with a message in the source), a propagated panic, or fuel
exhaustion of the embedding. -/
inductive ScrapeOutcome where
  | ok (res : SphinxDocumentResult)
  | notFound (msg : String)
  | abort
  | fuelOut
deriving DecidableEq, Repr

/-- The part of scrape_document after the cache: locate `dt#target` and its
parent, locate the first `dd` descendant of the parent, run the two
parsers. -/
def scrapeFromDoc (document : Node) (url target : String) : ScrapeOutcome :=
  match findWithParentNode (isDtWithId target) document with
  | none => .notFound "Could not find sig tag"
  | some (signature, parent) =>
    match findFirst (isTag "dd") parent with
    | none => .notFound "Could not find dd tag"
    | some node =>
      match parse_node node url with
      | .ok r => .ok ⟨r.1, parse_signature_node signature, r.2⟩
      | .abort => .abort
      | .fuelOut => .fuelOut

/-- The DOCUMENT_STORE lookup (HashMap::get). -/
def lookupStore (store : List (String × Node)) (url : String) : Option Node :=
  (store.find? (fun p => p.1 == url)).map (fun p => p.2)

/-- has_document of the source. -/
def has_document (store : List (String × Node)) (url : String) : Bool :=
  (lookupStore store url).isSome

/-- scrape_document of the source, with the global store threaded
explicitly: look the url up, parse-and-insert on a miss (the `html`
argument is modelled as the already-parsed tree), then scrape from the
stored document. Returns the updated store and the outcome. -/
def scrape_document (store : List (String × Node)) (url : String) (html : Node)
    (target : String) : List (String × Node) × ScrapeOutcome :=
  match lookupStore store url with
  | some document => (store, scrapeFromDoc document url target)
  | none => (store ++ [(url, html)], scrapeFromDoc html url target)

/-! Helper lemmas shared by the claim theorems. -/

theorem strLen_zero (s : String) : s.length = 0 ↔ s = "" := by
  constructor
  · intro h
    cases s with
    | mk l =>
      cases l with
      | nil => rfl
      | cons a t => simp [String.length] at h
  · intro h; subst h; rfl

/-- A definition list carrying a class attribute without "field-list" makes
the walker loop `break`: every later sibling is dropped, whatever it is. -/
theorem walkChildren_append_break (dAttrs : List (String × String)) (dCh : List Node)
    (cls : String)
    (hattr : Node.attr (.elem "dl" dAttrs dCh) "class" = some cls)
    (hcls : (splitSpaces cls).contains "field-list" = false) :
    ∀ (pre post : List Node),
      walkChildren (pre ++ .elem "dl" dAttrs dCh :: post) = walkChildren pre := by
  intro pre post
  have hcls2 : ¬ ("field-list" ∈ splitSpaces cls) := by simpa using hcls
  induction pre with
  | nil =>
    have h2 : startsWithH "dl" = false := by decide
    simp [walkChildren, h2, hattr, hcls2, (by decide : ¬ ("dl" ∈ allowTags))]
  | cons c pre ih =>
    cases c <;> (simp only [List.cons_append, walkChildren]; repeat' split) <;> simp [ih]

/-! The claims. -/

/-- C3: for every element whose child list contains a definition-list
carrying a class attribute that does not include "field-list", the walker
output consists of the results for the siblings preceding that `dl` only:
the `dl` itself and every sibling after it are dropped — the walk of that
sibling set terminates immediately. -/
theorem C3_non_field_list_dl_truncates_walk
    (tg : String) (attrs dAttrs : List (String × String)) (dCh : List Node)
    (cls : String) (pre post : List Node)
    (hattr : Node.attr (.elem "dl" dAttrs dCh) "class" = some cls)
    (hcls : (splitSpaces cls).contains "field-list" = false) :
    walk_nodes (.elem tg attrs (pre ++ .elem "dl" dAttrs dCh :: post))
      = walkChildren pre := by
  have h := walkChildren_append_break dAttrs dCh cls hattr hcls pre post
  simpa [walk_nodes] using h

/-- C3 witness: the spec's own example — a region `p a, dl.x, p b` walks to
the content of `p a` only. -/
theorem C3_non_field_list_dl_truncates_walk_witness :
    Node.attr (.elem "dl" [("class", "x")] [.elem "dd" [] []]) "class" = some "x" ∧
    (splitSpaces "x").contains "field-list" = false ∧
    walk_nodes (.elem "div" []
        ([.elem "p" [] [.text "a"]] ++
          .elem "dl" [("class", "x")] [.elem "dd" [] []] :: [.elem "p" [] [.text "b"]]))
      = walkChildren [.elem "p" [] [.text "a"]] :=
  ⟨by decide, by decide,
    C3_non_field_list_dl_truncates_walk "div" [] [("class", "x")] [.elem "dd" [] []] "x"
      [.elem "p" [] [.text "a"]] [.elem "p" [] [.text "b"]] (by decide) (by decide)⟩

/-- The document of the C1 failing input: the target `dt` exists and its
parent has a `dd` descendant, but that `dd` contains an operations division
whose `dl.describe` block has no inner `dd`. -/
def c1Html : Node :=
  .elem "html" [] [.elem "dl" [("class", "py function")] [
    .elem "dt" [("id", "mod.f")] [.text "mod.f()"],
    .elem "dd" [] [.elem "div" [("class", "operations")] [
      .elem "dl" [("class", "describe")] [.elem "dt" [] [.text "x + y"]]]]]]

/-- C1: refuted as stated — the orchestrator does not always return a full
result or a NotFound error. On `c1Html` the target signature is found and
the description `dd` is found (so the claim demands a full result), yet the
call propagates a panic from the `dl.describe` scan's `.unwrap()` instead
of returning anything. -/
theorem C1_scrape_panics_despite_target_present :
    (scrape_document [] "https://ex.com/" c1Html "mod.f").2 = .abort ∧
    (findWithParentNode (isDtWithId "mod.f") c1Html).isSome = true := by
  constructor <;> decide

/-- The C2 failing input: a division holding a `dl.describe` block whose
`dd` is missing. -/
def c2Container : Node :=
  .elem "body" [] [.elem "div" [("class", "operations")] [
    .elem "dl" [("class", "describe")] [.elem "dt" [] [.text "x + y"]]]]

/-- The same division with the `dd` present parses fine. -/
def c2Good : Node :=
  .elem "body" [] [.elem "div" [("class", "operations")] [
    .elem "dl" [("class", "describe")] [.elem "dt" [] [.text "x + y"],
      .elem "dd" [] [.text "desc"]]]]

/-- C2: refuted as stated — a `dl.describe` block missing its `dd` is not
skipped; the parse of the whole element dies on the `.unwrap()` panic
(modelled as `PRes.abort`), while the well-formed variant parses to a
Supported Operations field. -/
theorem C2_describe_missing_dd_panics :
    parse_node c2Container "https://ex.com/" = .abort ∧
    parse_node c2Good "https://ex.com/"
      = .ok ("", [⟨"Supported Operations", "**`x + y`** - desc", false⟩]) := by
  constructor <;> decide

/-- C5: once a url is cached, a second scrape with different html is served
from the first call's document — the second html argument is ignored and
the store is unchanged. -/
theorem C5_second_scrape_ignores_new_html
    (store : List (String × Node)) (url : String) (html1 html2 : Node)
    (t1 t2 : String)
    (hmiss : lookupStore store url = none) :
    scrape_document ((scrape_document store url html1 t1).1) url html2 t2
      = ((scrape_document store url html1 t1).1, scrapeFromDoc html1 url t2) ∧
    scrape_document ((scrape_document store url html1 t1).1) url html2 t2
      = scrape_document ((scrape_document store url html1 t1).1) url html1 t2 := by
  have hf : store.find? (fun p => p.1 == url) = none := by
    rcases h : store.find? (fun p => p.1 == url) with _ | v
    · exact h
    · rw [lookupStore, h] at hmiss
      simp at hmiss
  have hl : lookupStore (store ++ [(url, html1)]) url = some html1 := by
    simp [lookupStore, List.find?_append, hf]
  constructor <;> simp [scrape_document, hmiss, hl]

/-- C5 witness: two distinct documents under one url; the second call
answers from the first document. -/
theorem C5_second_scrape_ignores_new_html_witness :
    lookupStore [] "https://ex.com/" = none ∧
    scrape_document ((scrape_document [] "https://ex.com/" (.elem "html" [] []) "t").1)
        "https://ex.com/" (.elem "html" [] [.text "other"]) "t"
      = ((scrape_document [] "https://ex.com/" (.elem "html" [] []) "t").1,
         scrapeFromDoc (.elem "html" [] []) "https://ex.com/" "t") :=
  ⟨rfl,
    (C5_second_scrape_ignores_new_html [] "https://ex.com/" (.elem "html" [] [])
      (.elem "html" [] [.text "other"]) "t" "t" rfl).1⟩

/-- C6: the parsed document is inserted into the cache before the signature
lookup, so a call that fails with a NotFound error still leaves the
document cached — the cache is not rolled back on error. -/
theorem C6_failed_scrape_still_caches
    (store : List (String × Node)) (url : String) (html : Node) (target msg : String)
    (hfail : (scrape_document store url html target).2 = .notFound msg) :
    has_document (scrape_document store url html target).1 url = true := by
  rcases hcase : lookupStore store url with _ | doc
  · simp only [scrape_document, hcase]
    have hf : store.find? (fun p => p.1 == url) = none := by
      rcases h : store.find? (fun p => p.1 == url) with _ | v
      · exact h
      · rw [lookupStore, h] at hcase
        simp at hcase
    simp [has_document, lookupStore, List.find?_append, hf]
  · simp [scrape_document, hcase, has_document]

/-- C6 witness: a document with no matching dt fails with NotFound, and the
url is cached afterwards. -/
theorem C6_failed_scrape_still_caches_witness :
    (scrape_document [] "https://ex.com/" (.elem "html" [] []) "missing-id").2
      = .notFound "Could not find sig tag" ∧
    has_document (scrape_document [] "https://ex.com/" (.elem "html" [] []) "missing-id").1
        "https://ex.com/" = true :=
  ⟨rfl,
    C6_failed_scrape_still_caches [] "https://ex.com/" (.elem "html" [] [])
      "missing-id" "Could not find sig tag" rfl⟩

/-- Modelled from the claim and §4.4 of the spec: the per-child
classification of the Signature Tokenizer, matched in the spec's listed
priority order; "sig-param" children recurse and splice their spans. -/
def classifySigChild (c : Node) : List AnsiStringSection :=
  match c with
  | .text s => [⟨s, true, "gray"⟩]
  | .elem nm _ _ =>
    let classes := classListOf c
    if nm == "em" && !(classes.contains "sig-param") then [⟨c.textOf, false, "green"⟩]
    else if classes.contains "sig-paren" || classes.contains "o" then
      [⟨c.textOf, true, "gray"⟩]
    else if classes.contains "n" then [⟨c.textOf, false, "yellow"⟩]
    else if classes.contains "default_value" then [⟨c.textOf, false, "cyan"⟩]
    else if classes.contains "sig-prename" then
      [⟨c.textOf, false, if classes.contains "descclassname" then "white" else "red"⟩]
    else if classes.contains "descname" || classes.contains "sig-name" then
      [⟨c.textOf, true, "white"⟩]
    else if classes.contains "sig-param" then parse_signature_node c
    else []

theorem sigGo_eq_flatMap (cs : List Node) :
    ∀ acc, sigGo cs acc = acc ++ cs.flatMap classifySigChild := by
  induction cs with
  | nil => intro acc; simp [sigGo]
  | cons c rest ih =>
    intro acc
    cases c with
    | text s => simp [sigGo, classifySigChild, ih]
    | elem nm a ccs =>
      simp only [sigGo, classifySigChild, List.flatMap_cons, ih]
      repeat' split
      all_goals simp

/-- C10: the tokenizer iterates the direct children in source order and its
spans are exactly the concatenation, in that order, of each child's
classification — sig-param children contribute their recursively tokenized
spans spliced in place, and a child outside the recognized classification
set contributes no span (`classifySigChild` yields `[]` for it). -/
theorem C10_tokenizer_is_ordered_child_classification (n : Node) :
    parse_signature_node n = (Node.childrenOf n).flatMap classifySigChild := by
  cases n with
  | text s => simp [parse_signature_node, Node.childrenOf]
  | elem t a cs => simpa [parse_signature_node, Node.childrenOf] using sigGo_eq_flatMap cs []

/-- The C4 counterexample input: a field-list definition list whose only
`dt`/`dd` pair has an empty `dt` and an empty `dd`. -/
def c4Container : Node :=
  .elem "body" [] [.elem "dl" [("class", "field-list")] [.elem "dt" [] [], .elem "dd" [] []]]

/-- C4 counterexample: a pair with empty `dt` is not always skipped — when
`dd` is empty too, the source's `else if` still fires and emits a field
with an empty name and the placeholder value, where the claim predicts no
field at all. -/
theorem C4_empty_dt_pair_not_skipped :
    parse_node c4Container "u" = .ok ("", [⟨"", "No content provided.", false⟩]) ∧
    ¬ (parse_node c4Container "u" = .ok ("", [])) := by
  constructor <;> decide

/-- Modelled from the amended claim: the per-pair emission rule of the
standalone definition-list case. Both texts non-empty: a `{dt, dd}` field;
`dd` empty (whatever `dt` is, even empty): a placeholder field; `dt` empty
with `dd` non-empty: nothing. -/
def pairEmit (dtS ddS : String) : List EmbedField :=
  if dtS ≠ "" ∧ ddS ≠ "" then [⟨dtS, ddS, false⟩]
  else if ddS = "" then [⟨dtS, "No content provided.", false⟩]
  else []

/-- C4 amended: `dt`/`dd` descendants are paired positionally (zip) and
each pair contributes the sub-fields of both recursions followed by
`pairEmit dt dd`: a `{dt, dd}` field when both are non-empty, a
`{dt, "No content provided."}` field whenever `dd` is empty — including
when `dt` is empty too, which is the corrected part — and nothing when
`dt` is empty but `dd` is not. Every emitted field has a non-empty value. -/
theorem C4_dl_pairing_amended :
    (∀ (rec : Node → PRes (String × List EmbedField)) (dtN ddN : Node)
       (rest : List (Node × Node)) (dtS ddS : String) (f1 f2 fs : List EmbedField),
       rec dtN = .ok (dtS, f1) → rec ddN = .ok (ddS, f2) → pairsG rec rest = .ok fs →
       pairsG rec ((dtN, ddN) :: rest) = .ok (f1 ++ f2 ++ pairEmit dtS ddS ++ fs)) ∧
    (∀ dtS ddS : String, dtS ≠ "" → ddS ≠ "" → pairEmit dtS ddS = [⟨dtS, ddS, false⟩]) ∧
    (∀ dtS : String, pairEmit dtS "" = [⟨dtS, "No content provided.", false⟩]) ∧
    (∀ dtS ddS : String, dtS = "" → ddS ≠ "" → pairEmit dtS ddS = []) ∧
    (∀ dtS ddS : String, ∀ fld ∈ pairEmit dtS ddS, fld.value ≠ "") ∧
    (∀ (rec : Node → PRes (String × List EmbedField)) (url : String)
       (dlA : List (String × String)) (dlC : List Node) (rest : List WrappedNode)
       (res : String) (rub : Option String) (fields : List EmbedField),
       goWrapped rec url (.element (.elem "dl" dlA dlC) :: rest) res rub fields
         = (pairsG rec ((findAll (isTag "dt") (.elem "dl" dlA dlC)).zip
             (findAll (isTag "dd") (.elem "dl" dlA dlC)))).bind fun fs =>
           goWrapped rec url rest res rub (fields ++ fs)) := by
  refine ⟨?_, ?_, ?_, ?_, ?_, ?_⟩
  · intro rec dtN ddN rest dtS ddS f1 f2 fs h1 h2 h3
    simp only [pairsG, h1, h2, h3, PRes.bind]
    congr 1
    by_cases hdt : dtS = "" <;> by_cases hdd : ddS = "" <;>
      simp [pairEmit, hdt, hdd, strLen_zero, Nat.pos_iff_ne_zero, EmbedField.new]
  · intro dtS ddS hdt hdd; simp [pairEmit, hdt, hdd]
  · intro dtS
    by_cases hdt : dtS = "" <;> simp [pairEmit, hdt]
  · intro dtS ddS hdt hdd; simp [pairEmit, hdt, hdd]
  · intro dtS ddS fld hmem
    by_cases hdt : dtS = "" <;> by_cases hdd : ddS = "" <;>
      simp [pairEmit, hdt, hdd] at hmem <;> simp [hmem] <;> simp_all
  · intro rec url dlA dlC rest res rub fields
    rfl

/-- C4 amended witness: a pair with `dt` text "k" and empty `dd` emits the
placeholder field. -/
theorem C4_dl_pairing_amended_witness :
    parseNodeFn 2 "u" (.elem "dt" [] [.text "k"]) = .ok ("k", []) ∧
    parseNodeFn 2 "u" (.elem "dd" [] []) = .ok ("", []) ∧
    pairsG (parseNodeFn 2 "u") [(.elem "dt" [] [.text "k"], .elem "dd" [] [])]
      = .ok ([] ++ [] ++ pairEmit "k" "" ++ []) :=
  ⟨rfl, rfl,
    C4_dl_pairing_amended.1 (parseNodeFn 2 "u") (.elem "dt" [] [.text "k"])
      (.elem "dd" [] []) [] "k" "" [] [] [] rfl rfl rfl⟩

/-- The C7 counterexample input: a link with no `href` whose contents hold
a field-list definition list. -/
def c7Container : Node :=
  .elem "body" [] [.elem "a" [("class", "reference")] [
    .elem "dl" [("class", "field-list")] [.elem "dt" [] [.text "x"], .elem "dd" [] [.text "y"]]]]

/-- C7 counterexample: a link with no `href` attribute is recursed before
the `href` check, so fields found inside it are still accumulated — it does
contribute output, contrary to the claim's "no output". -/
theorem C7_no_href_link_still_contributes_fields :
    parse_node c7Container "https://base/" = .ok ("", [⟨"x", "y", false⟩]) ∧
    ¬ (parse_node c7Container "https://base/" = .ok ("", [])) := by
  constructor <;> decide

/-- C7 amended: a link with no `href` contributes no markdown text and no
error, but the fields discovered while recursing its inner content are
still accumulated; an `href` without "://" is emitted as
`[inner](base_url ++ href)` by plain string concatenation; an `href`
containing "://" is emitted unchanged as `[inner](href)` — inner fields
are accumulated in those two cases as well. -/
theorem C7_link_handling_amended :
    (∀ (rec : Node → PRes (String × List EmbedField)) (url : String)
       (aA : List (String × String)) (aC : List Node) (rest : List WrappedNode)
       (res : String) (rub : Option String) (fields : List EmbedField)
       (inner : String) (f1 : List EmbedField),
       rec (.elem "a" aA aC) = .ok (inner, f1) →
       Node.attr (.elem "a" aA aC) "href" = none →
       goWrapped rec url (.element (.elem "a" aA aC) :: rest) res rub fields
         = goWrapped rec url rest res rub (fields ++ f1)) ∧
    (∀ (rec : Node → PRes (String × List EmbedField)) (url : String)
       (aA : List (String × String)) (aC : List Node) (rest : List WrappedNode)
       (res : String) (rub : Option String) (fields : List EmbedField)
       (inner href0 : String) (f1 : List EmbedField),
       rec (.elem "a" aA aC) = .ok (inner, f1) →
       Node.attr (.elem "a" aA aC) "href" = some href0 →
       containsSub href0 "://" = false →
       goWrapped rec url (.element (.elem "a" aA aC) :: rest) res rub fields
         = goWrapped rec url rest
             (res ++ "[" ++ inner ++ "](" ++ (url ++ href0) ++ ")") rub (fields ++ f1)) ∧
    (∀ (rec : Node → PRes (String × List EmbedField)) (url : String)
       (aA : List (String × String)) (aC : List Node) (rest : List WrappedNode)
       (res : String) (rub : Option String) (fields : List EmbedField)
       (inner href0 : String) (f1 : List EmbedField),
       rec (.elem "a" aA aC) = .ok (inner, f1) →
       Node.attr (.elem "a" aA aC) "href" = some href0 →
       containsSub href0 "://" = true →
       goWrapped rec url (.element (.elem "a" aA aC) :: rest) res rub fields
         = goWrapped rec url rest
             (res ++ "[" ++ inner ++ "](" ++ href0 ++ ")") rub (fields ++ f1)) := by
  refine ⟨?_, ?_, ?_⟩ <;>
    · intro rec url aA aC rest res rub fields inner href0
      first
      | (intro f1 hrec hattr hcont
         have hd : goWrapped rec url (.element (.elem "a" aA aC) :: rest) res rub fields
             = (rec (.elem "a" aA aC)).bind (fun r =>
                 match Node.attr (.elem "a" aA aC) "href" with
                 | none => goWrapped rec url rest res rub (fields ++ r.2)
                 | some h0 =>
                   goWrapped rec url rest
                     (res ++ "[" ++ r.1 ++ "](" ++
                       (if containsSub h0 "://" then h0 else url ++ h0) ++ ")") rub
                     (fields ++ r.2)) := rfl
         rw [hd, hrec]
         simp only [PRes.bind, hattr, hcont]
         simp)
      | (intro hrec hattr
         have hd : goWrapped rec url (.element (.elem "a" aA aC) :: rest) res rub fields
             = (rec (.elem "a" aA aC)).bind (fun r =>
                 match Node.attr (.elem "a" aA aC) "href" with
                 | none => goWrapped rec url rest res rub (fields ++ r.2)
                 | some h0 =>
                   goWrapped rec url rest
                     (res ++ "[" ++ r.1 ++ "](" ++
                       (if containsSub h0 "://" then h0 else url ++ h0) ++ ")") rub
                     (fields ++ r.2)) := rfl
         rw [hd, hrec]
         simp only [PRes.bind, hattr])

/-- C7 amended witness: the spec's link-resolution examples, plus the
no-href case. -/
theorem C7_link_handling_amended_witness :
    goWrapped (parseNodeFn 2 "https://docs.example.com") "https://docs.example.com"
        [.element (.elem "a" [("href", "/api/foo")] [.text "text"])] "" none []
      = goWrapped (parseNodeFn 2 "https://docs.example.com") "https://docs.example.com"
          [] ("" ++ "[" ++ "text" ++ "](" ++ ("https://docs.example.com" ++ "/api/foo") ++ ")")
          none ([] ++ []) ∧
    goWrapped (parseNodeFn 2 "u") "u"
        [.element (.elem "a" [("href", "https://other.com/x")] [.text "text"])] "" none []
      = goWrapped (parseNodeFn 2 "u") "u"
          [] ("" ++ "[" ++ "text" ++ "](" ++ "https://other.com/x" ++ ")") none ([] ++ []) ∧
    goWrapped (parseNodeFn 2 "u") "u" [.element (.elem "a" [] [.text "text"])] "" none []
      = goWrapped (parseNodeFn 2 "u") "u" [] "" none ([] ++ []) :=
  ⟨C7_link_handling_amended.2.1 (parseNodeFn 2 "https://docs.example.com")
      "https://docs.example.com" [("href", "/api/foo")] [.text "text"] [] "" none []
      "text" "/api/foo" [] rfl rfl rfl,
   C7_link_handling_amended.2.2 (parseNodeFn 2 "u") "u" [("href", "https://other.com/x")]
      [.text "text"] [] "" none [] "text" "https://other.com/x" [] rfl rfl rfl,
   C7_link_handling_amended.1 (parseNodeFn 2 "u") "u" [] [.text "text"] [] "" none []
      "text" [] rfl rfl⟩

/-- C8: the admonition case of the parser. The `div` arm dispatches to
`divStep`; an admonition division takes its first `p` descendant as title
and the node immediately following that `p` as content, recurses and trims
both, suppresses the field when either half is missing or trims to empty
(keeping only the sub-fields found while recursing), and otherwise emits
exactly the field `{name = title, value = content}` — whose name and value
are therefore never empty. -/
theorem C8_admonition_field_emission :
    (∀ (rec : Node → PRes (String × List EmbedField)) (url : String)
       (dA : List (String × String)) (dC : List Node) (rest : List WrappedNode)
       (res : String) (rub : Option String) (fields : List EmbedField),
       goWrapped rec url (.element (.elem "div" dA dC) :: rest) res rub fields
         = (divStep rec (.elem "div" dA dC) res rub fields).bind fun st =>
           goWrapped rec url rest st.1 st.2.1 st.2.2) ∧
    (∀ (rec : Node → PRes (String × List EmbedField)) (e : Node)
       (res : String) (rub : Option String) (fields : List EmbedField),
       (classListOf e).contains "admonition" = true →
       firstWithNextNode (isTag "p") e = none →
       divStep rec e res rub fields = .ok (res, rub, fields)) ∧
    (∀ (rec : Node → PRes (String × List EmbedField)) (e p : Node)
       (res : String) (rub : Option String) (fields : List EmbedField)
       (tRaw : String) (tf : List EmbedField),
       (classListOf e).contains "admonition" = true →
       firstWithNextNode (isTag "p") e = some (p, none) →
       rec p = .ok (tRaw, tf) →
       divStep rec e res rub fields = .ok (res, rub, fields ++ tf)) ∧
    (∀ (rec : Node → PRes (String × List EmbedField)) (e p nxt : Node)
       (res : String) (rub : Option String) (fields : List EmbedField)
       (tRaw cRaw : String) (tf cf : List EmbedField),
       (classListOf e).contains "admonition" = true →
       firstWithNextNode (isTag "p") e = some (p, some nxt) →
       rec p = .ok (tRaw, tf) → rec nxt = .ok (cRaw, cf) →
       (trimS tRaw = "" ∨ trimS cRaw = "") →
       divStep rec e res rub fields = .ok (res, rub, fields ++ tf ++ cf)) ∧
    (∀ (rec : Node → PRes (String × List EmbedField)) (e p nxt : Node)
       (res : String) (rub : Option String) (fields : List EmbedField)
       (tRaw cRaw : String) (tf cf : List EmbedField),
       (classListOf e).contains "admonition" = true →
       firstWithNextNode (isTag "p") e = some (p, some nxt) →
       rec p = .ok (tRaw, tf) → rec nxt = .ok (cRaw, cf) →
       trimS tRaw ≠ "" → trimS cRaw ≠ "" →
       findAll isDescribe e = [] →
       divStep rec e res rub fields
         = .ok (res, rub,
             fields ++ tf ++ cf ++ [EmbedField.new (trimS tRaw) (trimS cRaw)])) ∧
    (∀ tRaw cRaw : String, trimS tRaw ≠ "" → trimS cRaw ≠ "" →
       (EmbedField.new (trimS tRaw) (trimS cRaw)).name ≠ "" ∧
       (EmbedField.new (trimS tRaw) (trimS cRaw)).value ≠ "") := by
  refine ⟨?_, ?_, ?_, ?_, ?_, ?_⟩
  · intro rec url dA dC rest res rub fields
    rfl
  · intro rec e res rub fields hadm hfw
    have hadm2 : "admonition" ∈ classListOf e := by simpa using hadm
    simp [divStep, hadm2, hfw]
  · intro rec e p res rub fields tRaw tf hadm hfw hp
    have hadm2 : "admonition" ∈ classListOf e := by simpa using hadm
    simp [divStep, hadm2, hfw, hp, PRes.bind]
  · intro rec e p nxt res rub fields tRaw cRaw tf cf hadm hfw hp hn hts
    have hadm2 : "admonition" ∈ classListOf e := by simpa using hadm
    have hz : (trimS tRaw).length = 0 ∨ (trimS cRaw).length = 0 := by
      rcases hts with h | h <;> simp [strLen_zero, h]
    simp [divStep, hadm2, hfw, hp, hn, PRes.bind, hz]
  · intro rec e p nxt res rub fields tRaw cRaw tf cf hadm hfw hp hn ht hc hdesc
    have hadm2 : "admonition" ∈ classListOf e := by simpa using hadm
    simp [divStep, hadm2, hfw, hp, hn, PRes.bind, hdesc, describeG, soFields,
      strLen_zero, ht, hc]
  · intro tRaw cRaw ht hc
    exact ⟨ht, hc⟩

/-- C8 witness: a note admonition with title paragraph "Note" and content
paragraph "Stuff" emits exactly the field Note/Stuff. -/
theorem C8_admonition_field_emission_witness :
    (classListOf (.elem "div" [("class", "admonition note")]
        [.elem "p" [] [.text "Note"], .elem "p" [] [.text "Stuff"]])).contains
        "admonition" = true ∧
    divStep (parseNodeFn 1 "u")
        (.elem "div" [("class", "admonition note")]
          [.elem "p" [] [.text "Note"], .elem "p" [] [.text "Stuff"]]) "" none []
      = .ok ("", none, [] ++ [] ++ [] ++ [EmbedField.new (trimS "Note") (trimS "Stuff")]) :=
  ⟨by decide,
    C8_admonition_field_emission.2.2.2.2.1 (parseNodeFn 1 "u")
      (.elem "div" [("class", "admonition note")]
        [.elem "p" [] [.text "Note"], .elem "p" [] [.text "Stuff"]])
      (.elem "p" [] [.text "Note"]) (.elem "p" [] [.text "Stuff"]) "" none []
      "Note" "Stuff" [] [] (by decide) rfl rfl rfl (by decide) (by decide) rfl⟩

/-- C9: list rendering. A `ul` element contributes one line `• t` per `li`
descendant in source order (after a leading newline); an `ol` element
contributes one line `i. t` per `li` descendant with the index starting at
0 in source order; sub-fields of the `li` recursions are accumulated in
order. Concretely, `ol(li a, li b)` renders as the lines `0. a` and `1. b`
and `ul(li a, li b)` as the lines `• a` and `• b`. -/
theorem C9_list_rendering :
    (∀ (rec : Node → PRes (String × List EmbedField)) (url : String)
       (uA : List (String × String)) (uC : List Node) (rest : List WrappedNode)
       (res : String) (rub : Option String) (fields : List EmbedField)
       (rs : List (String × List EmbedField)),
       listG rec (findAll (isTag "li") (.elem "ul" uA uC)) = .ok rs →
       goWrapped rec url (.element (.elem "ul" uA uC) :: rest) res rub fields
         = goWrapped rec url rest
             (res ++ "\n" ++ concatS (rs.map fun r => "• " ++ r.1 ++ "\n")) rub
             (fields ++ (rs.map fun r => r.2).flatten)) ∧
    (∀ (rec : Node → PRes (String × List EmbedField)) (url : String)
       (oA : List (String × String)) (oC : List Node) (rest : List WrappedNode)
       (res : String) (rub : Option String) (fields : List EmbedField)
       (rs : List (String × List EmbedField)),
       listG rec (findAll (isTag "li") (.elem "ol" oA oC)) = .ok rs →
       goWrapped rec url (.element (.elem "ol" oA oC) :: rest) res rub fields
         = goWrapped rec url rest
             (res ++ concatS (rs.enum.map fun ir => Nat.repr ir.1 ++ ". " ++ ir.2.1 ++ "\n"))
             rub (fields ++ (rs.map fun r => r.2).flatten)) ∧
    parse_node (.elem "body" []
        [.elem "ol" [] [.elem "li" [] [.text "a"], .elem "li" [] [.text "b"]]]) "u"
      = .ok ("0. a\n1. b\n", []) ∧
    parse_node (.elem "body" []
        [.elem "ul" [] [.elem "li" [] [.text "a"], .elem "li" [] [.text "b"]]]) "u"
      = .ok ("\n• a\n• b\n", []) := by
  refine ⟨?_, ?_, by decide, by decide⟩
  · intro rec url uA uC rest res rub fields rs hls
    have hd : goWrapped rec url (.element (.elem "ul" uA uC) :: rest) res rub fields
        = (listG rec (findAll (isTag "li") (.elem "ul" uA uC))).bind (fun rs =>
            goWrapped rec url rest
              (res ++ "\n" ++ concatS (rs.map fun r => "• " ++ r.1 ++ "\n")) rub
              (fields ++ (rs.map fun r => r.2).flatten)) := rfl
    rw [hd, hls]
    rfl
  · intro rec url oA oC rest res rub fields rs hls
    have hd : goWrapped rec url (.element (.elem "ol" oA oC) :: rest) res rub fields
        = (listG rec (findAll (isTag "li") (.elem "ol" oA oC))).bind (fun rs =>
            goWrapped rec url rest
              (res ++ concatS (rs.enum.map fun ir => Nat.repr ir.1 ++ ". " ++ ir.2.1 ++ "\n"))
              rub (fields ++ (rs.map fun r => r.2).flatten)) := rfl
    rw [hd, hls]
    rfl

/-- C9 witness: the two general parts instantiated on concrete lists. -/
theorem C9_list_rendering_witness :
    goWrapped (parseNodeFn 2 "u") "u"
        [.element (.elem "ul" [] [.elem "li" [] [.text "a"], .elem "li" [] [.text "b"]])]
        "" none []
      = goWrapped (parseNodeFn 2 "u") "u" []
          ("" ++ "\n" ++ concatS ([("a", ([] : List EmbedField)), ("b", [])].map
            fun r => "• " ++ r.1 ++ "\n")) none
          ([] ++ ([("a", ([] : List EmbedField)), ("b", [])].map fun r => r.2).flatten) ∧
    goWrapped (parseNodeFn 2 "u") "u"
        [.element (.elem "ol" [] [.elem "li" [] [.text "a"], .elem "li" [] [.text "b"]])]
        "" none []
      = goWrapped (parseNodeFn 2 "u") "u" []
          ("" ++ concatS (([("a", ([] : List EmbedField)), ("b", [])].enum).map
            fun ir => Nat.repr ir.1 ++ ". " ++ ir.2.1 ++ "\n")) none
          ([] ++ ([("a", ([] : List EmbedField)), ("b", [])].map fun r => r.2).flatten) :=
  ⟨C9_list_rendering.1 (parseNodeFn 2 "u") "u" []
      [.elem "li" [] [.text "a"], .elem "li" [] [.text "b"]] [] "" none []
      [("a", []), ("b", [])] rfl,
   C9_list_rendering.2.1 (parseNodeFn 2 "u") "u" []
      [.elem "li" [] [.text "a"], .elem "li" [] [.text "b"]] [] "" none []
      [("a", []), ("b", [])] rfl⟩

/-! Fuel adequacy: with fuel `Node.size`, the parser never runs out of
fuel, so `parse_node` and `scrape_document` can only return a value or a
panic — exactly the outcomes of the Rust source. -/

theorem PRes.bind_ne_fuelOut {α β : Type} {x : PRes α} {g : α → PRes β}
    (hx : x ≠ .fuelOut) (hg : ∀ a, g a ≠ .fuelOut) : x.bind g ≠ .fuelOut := by
  cases x with
  | ok a => exact hg a
  | abort => simp [PRes.bind]
  | fuelOut => exact absurd rfl hx

theorem Node.size_pos (n : Node) : 0 < n.size := by
  cases n <;> simp [Node.size]

mutual
theorem size_lt_of_mem_descendants : ∀ (n d : Node), d ∈ n.descendants → d.size < n.size
  | .text _, d, h => by simp [Node.descendants] at h
  | .elem t a cs, d, h => by
    have hle := size_le_of_mem_descList cs d (by simpa [Node.descendants] using h)
    simp only [Node.size]
    omega

theorem size_le_of_mem_descList :
    ∀ (cs : List Node) (d : Node), d ∈ Node.descList cs → d.size ≤ Node.sizeList cs
  | [], d, h => by simp [Node.descList] at h
  | c :: cs, d, h => by
    rcases (by simpa [Node.descList] using h : d = c ∨ d ∈ c.descendants ∨ d ∈ Node.descList cs)
        with h1 | h2 | h3
    · subst h1; simp only [Node.sizeList]; omega
    · have := size_lt_of_mem_descendants c d h2
      simp only [Node.sizeList]; omega
    · have := size_le_of_mem_descList cs d h3
      have := c.size_pos
      simp only [Node.sizeList]; omega
end

theorem mem_descList_of_mem {cs : List Node} {d : Node} (h : d ∈ cs) :
    d ∈ Node.descList cs := by
  induction cs with
  | nil => simp at h
  | cons c cs ih =>
    rcases List.mem_cons.1 h with h | h
    · subst h; simp [Node.descList]
    · simp [Node.descList, ih h]

theorem mem_descList_of_mem_descendants {cs : List Node} {c d : Node}
    (hc : c ∈ cs) (hd : d ∈ c.descendants) : d ∈ Node.descList cs := by
  induction cs with
  | nil => simp at hc
  | cons x cs ih =>
    rcases List.mem_cons.1 hc with hc | hc
    · subst hc; simp [Node.descList, hd]
    · simp [Node.descList, ih hc]

mutual
theorem mem_desc_of_walk :
    ∀ (n e : Node), WrappedNode.element e ∈ walk_nodes n → e ∈ n.descendants
  | .text _, e, h => by simp [walk_nodes] at h
  | .elem t a cs, e, h => by
    simpa [Node.descendants] using
      mem_descList_of_walkChildren cs e (by simpa [walk_nodes] using h)

theorem mem_descList_of_walkChildren :
    ∀ (cs : List Node) (e : Node), WrappedNode.element e ∈ walkChildren cs →
      e ∈ Node.descList cs
  | [], e, h => by simp [walkChildren] at h
  | c :: cs, e, h => by
    have tail : WrappedNode.element e ∈ walkChildren cs → e ∈ Node.descList (c :: cs) :=
      fun hh => by simp [Node.descList, mem_descList_of_walkChildren cs e hh]
    have hd : WrappedNode.element e = WrappedNode.element c → e ∈ Node.descList (c :: cs) := by
      intro hh
      injection hh with h2
      subst h2
      simp [Node.descList]
    rcases c with s | ⟨tg, at_, ch⟩
    · simp only [walkChildren] at h
      split at h
      · rcases List.mem_cons.1 h with h | h
        · exact absurd h (by simp)
        · exact tail h
      · exact tail h
    · simp only [walkChildren] at h
      split at h
      · rcases List.mem_cons.1 h with h | h
        · exact hd h
        · exact tail h
      · split at h
        · rcases List.mem_cons.1 h with h | h
          · exact hd h
          · exact tail h
        · split at h
          · exact tail h
          · split at h
            · split at h
              · simp at h
              · rcases List.mem_cons.1 h with h | h
                · exact hd h
                · exact tail h
            · split at h
              · rcases List.mem_cons.1 h with h | h
                · exact hd h
                · exact tail h
              · rcases List.mem_append.1 h with h | h
                · have := mem_desc_of_walk _ e h
                  simp [Node.descList, this]
                · exact tail h
end

mutual
theorem desc_trans_node : ∀ (n b d : Node),
    b ∈ n.descendants → d ∈ b.descendants → d ∈ n.descendants
  | .text _, b, d, hb, hd => by simp [Node.descendants] at hb
  | .elem t a cs, b, d, hb, hd => by
    simpa [Node.descendants] using
      desc_trans_list cs b d (by simpa [Node.descendants] using hb) hd

theorem desc_trans_list : ∀ (cs : List Node) (b d : Node),
    b ∈ Node.descList cs → d ∈ b.descendants → d ∈ Node.descList cs
  | [], b, d, hb, hd => by simp [Node.descList] at hb
  | c :: cs, b, d, hb, hd => by
    rcases (by simpa [Node.descList] using hb :
        b = c ∨ b ∈ c.descendants ∨ b ∈ Node.descList cs) with h1 | h2 | h3
    · subst h1; simp [Node.descList, hd]
    · simp [Node.descList, desc_trans_node c b d h2 hd]
    · simp [Node.descList, desc_trans_list cs b d h3 hd]
end

theorem head?_mem_descList {cs : List Node} {y : Node} (h : cs.head? = some y) :
    ∀ c, y ∈ Node.descList (c :: cs) := by
  intro c
  cases cs with
  | nil => simp at h
  | cons a l =>
    have : y = a := by simpa using h.symm
    subst this
    simp [Node.descList]

mutual
theorem fwn_node_mem : ∀ (p : Node → Bool) (n x : Node) (sib : Option Node),
    firstWithNextNode p n = some (x, sib) →
    x ∈ n.descendants ∧ ∀ y, sib = some y → y ∈ n.descendants
  | p, .text _, x, sib, h => by simp [firstWithNextNode] at h
  | p, .elem t a cs, x, sib, h => by
    simpa [Node.descendants] using
      fwn_list_mem p cs x sib (by simpa [firstWithNextNode] using h)

theorem fwn_list_mem : ∀ (p : Node → Bool) (cs : List Node) (x : Node) (sib : Option Node),
    firstWithNextIn p cs = some (x, sib) →
    x ∈ Node.descList cs ∧ ∀ y, sib = some y → y ∈ Node.descList cs
  | p, [], x, sib, h => by simp [firstWithNextIn] at h
  | p, c :: cs, x, sib, h => by
    simp only [firstWithNextIn] at h
    split at h
    · obtain ⟨hx, hs⟩ : c = x ∧ cs.head? = sib := by simpa using h
      subst hx; subst hs
      refine ⟨by simp [Node.descList], ?_⟩
      intro y hy
      exact head?_mem_descList hy c
    · split at h
      · next r heq =>
        obtain rfl : r = (x, sib) := by simpa using h
        have hm := fwn_node_mem p c x sib heq
        refine ⟨by simp [Node.descList, hm.1], ?_⟩
        intro y hy
        simp [Node.descList, hm.2 y hy]
      · have hm := fwn_list_mem p cs x sib h
        refine ⟨by simp [Node.descList, hm.1], ?_⟩
        intro y hy
        simp [Node.descList, hm.2 y hy]
end

theorem findFirst_mem {p : Node → Bool} {n d : Node} (h : findFirst p n = some d) :
    d ∈ n.descendants := by
  exact List.mem_of_find?_eq_some h

theorem findAll_mem {p : Node → Bool} {n d : Node} (h : d ∈ findAll p n) :
    d ∈ n.descendants := by
  exact List.mem_of_mem_filter h

theorem listG_ne_fuelOut (rec : Node → PRes (String × List EmbedField)) (ls : List Node)
    (h : ∀ l ∈ ls, rec l ≠ .fuelOut) : listG rec ls ≠ .fuelOut := by
  induction ls with
  | nil => simp [listG]
  | cons l rest ih =>
    simp only [listG]
    exact PRes.bind_ne_fuelOut (h l (by simp)) fun r =>
      PRes.bind_ne_fuelOut (ih fun x hx => h x (by simp [hx])) fun rs => by simp

theorem pairsG_ne_fuelOut (rec : Node → PRes (String × List EmbedField))
    (ps : List (Node × Node))
    (h : ∀ pr ∈ ps, rec pr.1 ≠ .fuelOut ∧ rec pr.2 ≠ .fuelOut) :
    pairsG rec ps ≠ .fuelOut := by
  induction ps with
  | nil => simp [pairsG]
  | cons pr rest ih =>
    obtain ⟨dtN, ddN⟩ := pr
    simp only [pairsG]
    refine PRes.bind_ne_fuelOut (h (dtN, ddN) (by simp)).1 fun dtR => ?_
    refine PRes.bind_ne_fuelOut (h (dtN, ddN) (by simp)).2 fun ddR => ?_
    exact PRes.bind_ne_fuelOut (ih fun x hx => h x (by simp [hx])) fun fs => by simp

theorem describeG_ne_fuelOut (rec : Node → PRes (String × List EmbedField)) (bs : List Node)
    (h : ∀ b ∈ bs, ∀ d ∈ b.descendants, rec d ≠ .fuelOut) :
    describeG rec bs ≠ .fuelOut := by
  induction bs with
  | nil => simp [describeG]
  | cons b rest ih =>
    simp only [describeG]
    rcases hdt : findFirst (isTag "dt") b with _ | dtN
    · simp
    · refine PRes.bind_ne_fuelOut (h b (by simp) dtN (findFirst_mem hdt)) fun op => ?_
      rcases hdd : findFirst (isTag "dd") b with _ | ddN
      · simp
      · refine PRes.bind_ne_fuelOut (h b (by simp) ddN (findFirst_mem hdd)) fun de => ?_
        exact PRes.bind_ne_fuelOut (ih fun x hx => h x (by simp [hx])) fun cf => by simp

theorem divStep_ne_fuelOut (rec : Node → PRes (String × List EmbedField)) (e : Node)
    (res : String) (rub : Option String) (fields : List EmbedField)
    (hrec : ∀ d ∈ e.descendants, rec d ≠ .fuelOut) :
    divStep rec e res rub fields ≠ .fuelOut := by
  have hdesc : describeG rec (findAll isDescribe e) ≠ .fuelOut := by
    apply describeG_ne_fuelOut
    intro b hb d hd
    exact hrec d (desc_trans_node e b d (findAll_mem hb) hd)
  simp only [divStep]
  split
  · split
    · simp
    · next first nextSib heq =>
      refine PRes.bind_ne_fuelOut (hrec first (fwn_node_mem _ e first nextSib heq).1)
        fun tR => ?_
      cases nextSib with
      | none => simp
      | some nxt =>
        refine PRes.bind_ne_fuelOut
          (hrec nxt ((fwn_node_mem _ e first (some nxt) heq).2 nxt rfl)) fun cR => ?_
        split
        · simp
        · exact PRes.bind_ne_fuelOut hdesc fun dR => by simp
  · split
    · exact PRes.bind_ne_fuelOut hdesc fun dR => by simp
    · split
      · exact PRes.bind_ne_fuelOut hdesc fun dR => by simp
      · exact PRes.bind_ne_fuelOut hdesc fun dR => by simp

theorem goWrapped_ne_fuelOut (rec : Node → PRes (String × List EmbedField)) (url : String) :
    ∀ (ws : List WrappedNode) (res : String) (rub : Option String) (fields : List EmbedField),
    (∀ e, WrappedNode.element e ∈ ws →
      rec e ≠ .fuelOut ∧ ∀ d ∈ e.descendants, rec d ≠ .fuelOut) →
    goWrapped rec url ws res rub fields ≠ .fuelOut := by
  intro ws
  induction ws with
  | nil => intro res rub fields h; simp [goWrapped]
  | cons w rest ih =>
    intro res rub fields h
    have htail : ∀ (res2 : String) (rub2 : Option String) (fields2 : List EmbedField),
        goWrapped rec url rest res2 rub2 fields2 ≠ .fuelOut :=
      fun res2 rub2 fields2 => ih res2 rub2 fields2 (fun e he => h e (by simp [he]))
    cases w with
    | text t => simpa [goWrapped] using htail (res ++ t) rub fields
    | element e =>
      have he := h e (by simp)
      have hli : ∀ tg2 : String, listG rec (findAll (isTag tg2) e) ≠ .fuelOut := by
        intro tg2
        exact listG_ne_fuelOut rec _ fun l hl => he.2 l (findAll_mem hl)
      simp only [goWrapped]
      split
      · split
        · exact htail _ _ _
        · exact PRes.bind_ne_fuelOut he.1 fun r => htail _ _ _
      · refine PRes.bind_ne_fuelOut he.1 fun inner => ?_
        split
        · exact htail _ _ _
        · exact htail _ _ _
      · exact PRes.bind_ne_fuelOut he.1 fun r => htail _ _ _
      · exact PRes.bind_ne_fuelOut he.1 fun r => htail _ _ _
      · exact PRes.bind_ne_fuelOut he.1 fun r => htail _ _ _
      · exact PRes.bind_ne_fuelOut he.1 fun r => htail _ _ _
      · exact PRes.bind_ne_fuelOut he.1 fun r => htail _ _ _
      · exact PRes.bind_ne_fuelOut he.1 fun r => htail _ _ _
      · exact PRes.bind_ne_fuelOut (hli "li") fun rs => htail _ _ _
      · exact PRes.bind_ne_fuelOut (hli "li") fun rs => htail _ _ _
      · exact PRes.bind_ne_fuelOut (divStep_ne_fuelOut rec e res rub fields he.2)
          fun st => htail _ _ _
      · refine PRes.bind_ne_fuelOut ?_ fun fs => htail _ _ _
        apply pairsG_ne_fuelOut
        intro pr hpr
        have hm := List.of_mem_zip hpr
        exact ⟨he.2 pr.1 (findAll_mem hm.1), he.2 pr.2 (findAll_mem hm.2)⟩
      · exact htail _ _ _

/-- Fuel `Node.size` suffices: the parser never runs out of fuel. -/
theorem parseNodeF_ne_fuelOut :
    ∀ (f : Nat) (n : Node) (url : String), n.size ≤ f → parseNodeF f n url ≠ .fuelOut := by
  intro f
  induction f with
  | zero =>
    intro n url h
    have := n.size_pos
    omega
  | succ f ih =>
    intro n url h
    cases n with
    | text s => simp [parseNodeF]
    | elem t a cs =>
      simp only [parseNodeF]
      apply PRes.bind_ne_fuelOut
      · apply goWrapped_ne_fuelOut
        intro e he
        have hdesc : e ∈ (Node.elem t a cs).descendants := mem_desc_of_walk _ e he
        have hsz : e.size < (Node.elem t a cs).size := size_lt_of_mem_descendants _ e hdesc
        refine ⟨ih e url (by omega), ?_⟩
        intro d hd
        have : d.size < e.size := size_lt_of_mem_descendants e d hd
        exact ih d url (by omega)
      · intro r
        simp

/-- parse_node never returns the fuel-exhaustion marker: its outcomes are
exactly a value or a panic, as in the source. -/
theorem parse_node_ne_fuelOut (n : Node) (url : String) : parse_node n url ≠ .fuelOut :=
  parseNodeF_ne_fuelOut n.size n url le_rfl

/-- scrape_document never returns the fuel-exhaustion marker either. -/
theorem scrape_document_ne_fuelOut (store : List (String × Node)) (url : String)
    (html : Node) (target : String) :
    (scrape_document store url html target).2 ≠ .fuelOut := by
  have hdoc : ∀ d, scrapeFromDoc d url target ≠ .fuelOut := by
    intro d
    simp only [scrapeFromDoc]
    split
    · simp
    · split
      · simp
      · next nd hnd =>
        rcases hp : parse_node nd url with r | _ | _
        · simp [hp]
        · simp [hp]
        · exact absurd hp (parse_node_ne_fuelOut nd url)
  simp only [scrape_document]
  split
  · exact hdoc _
  · exact hdoc _
